import Mathlib

/-!
Verification of the character search and classification engine of the
glyphana repository.

The Rust sources embedded here are `src/search.rs` (`SearchParams`,
`SearchEngine` with `search`, `search_special_patterns`, `parse_hex_code`,
`filter_by_categories`, `apply_search_filters`, `fuzzy_search`,
`skeleton_search`), `src/categories.rs` (`CharacterInspector`,
`UnicodeCategory` and its variants), and the recently-used list handling in
`src/app.rs`.

A `BTreeMap<char, String>` is modelled as a `List (Char × String)` in
strictly ascending codepoint order; all map operations used by the code
(`get`, iteration, `filter`, `collect`, singleton insertion) are modelled by
the corresponding list operations, which preserve that order.

External pure functions consumed by the code are modelled as follows:
* `stringzilla`'s `sz_edit_distance` is byte-level Levenshtein distance,
  modelled by `szEditDistance` below (fuel-based so that it reduces in the
  kernel; the fuel `a.length + b.length` always suffices).
* Unicode data tables (Rust `char::is_alphabetic`, the `finl_unicode`
  general-category predicates, `unicode_blocks::find_unicode_block`, and the
  `unicode_skeleton` confusable predicate) are kept abstract in a
  `UnicodeData` record that every statement quantifies over; concrete
  instantiations used for evaluation are documented where they are defined.
* `str::to_lowercase` / `char::to_lowercase` and `str::trim` /
  `split_whitespace` use Unicode tables in Rust; they are modelled with
  ASCII case mapping (`Char.toLower`) and ASCII whitespace
  (`Char.isWhitespace`), with which they agree on every string these
  theorems evaluate them on (all concrete inputs are ASCII).
-/

namespace Glyphana

/-- Model of Rust `str::to_lowercase` (per-`Char` ASCII lowercasing; agrees
with the Unicode mapping on ASCII strings, the only ones evaluated here). -/
def strLower (s : String) : String := String.mk (s.toList.map Char.toLower)

/-- Decidable check that `pat` occurs as a contiguous sublist of `l`. -/
def isInfixCheck (pat : List Char) : List Char → Bool
  | [] => pat.isEmpty
  | c :: rest => pat.isPrefixOf (c :: rest) || isInfixCheck pat rest

/-- Model of Rust `s.contains(pat)` for strings: `pat` occurs as a
contiguous substring of `s`. -/
def strContainsStr (s pat : String) : Bool := isInfixCheck pat.toList s.toList

/-- Model of Rust `s.starts_with(pat)` for strings. -/
def strStartsWith (s pat : String) : Bool := List.isPrefixOf pat.toList s.toList

/-- Model of Rust `str::trim` on the character list (ASCII whitespace; the
trimmed inputs evaluated here are all whitespace-free ASCII). -/
def rustTrimList (cs : List Char) : List Char :=
  ((cs.dropWhile Char.isWhitespace).reverse.dropWhile Char.isWhitespace).reverse

/-- Model of Rust `str::split_whitespace`: maximal runs of non-whitespace
characters, empty runs discarded.  `acc` holds the current run, reversed. -/
def splitWsAux : List Char → List Char → List String
  | [], acc => if acc.isEmpty then [] else [String.mk acc.reverse]
  | c :: rest, acc =>
    if c.isWhitespace then
      if acc.isEmpty then splitWsAux rest []
      else String.mk acc.reverse :: splitWsAux rest []
    else splitWsAux rest (c :: acc)

def splitWhitespace (s : String) : List String := splitWsAux s.toList []

/-- UTF-8 encoding of a string, as the list of its bytes (Rust `str` is
UTF-8; `str::len` and `stringzilla` distances are byte-based). -/
def utf8Bytes (s : String) : List UInt8 := s.toList.flatMap String.utf8EncodeChar

/-- Rust `str::len` (UTF-8 byte length). -/
def byteLen (s : String) : Nat := (utf8Bytes s).length

/-- Levenshtein distance with explicit fuel so the definition is structurally
recursive and reduces in the kernel.  With `fuel ≥ a.length + b.length` the
fuel is never exhausted, so `levFuel (a.length + b.length) a b` is the
standard Levenshtein distance between `a` and `b`. -/
def levFuel : Nat → List UInt8 → List UInt8 → Nat
  | _, [], b => b.length
  | _, a, [] => a.length
  | 0, _, _ => 0
  | fuel + 1, x :: xs, y :: ys =>
    if x = y then levFuel fuel xs ys
    else 1 + min (levFuel fuel xs ys)
            (min (levFuel fuel (x :: xs) ys) (levFuel fuel xs (y :: ys)))

/-- Model of `stringzilla`'s `sz_edit_distance`: Levenshtein distance over
the UTF-8 bytes of the two strings. -/
def szEditDistance (a b : String) : Nat :=
  levFuel ((utf8Bytes a).length + (utf8Bytes b).length) (utf8Bytes a) (utf8Bytes b)

/-- Rust `char::is_ascii_hexdigit`. -/
def isAsciiHexDigit (c : Char) : Bool :=
  c.isDigit || ('a' ≤ c && c ≤ 'f') || ('A' ≤ c && c ≤ 'F')

/-- Rust `char::to_digit(radix)`, restricted to the value it yields when it
yields one (digits, then letters starting at value 10). -/
def digitVal (c : Char) : Option Nat :=
  if '0' ≤ c ∧ c ≤ '9' then some (c.toNat - '0'.toNat)
  else if 'a' ≤ c ∧ c ≤ 'z' then some (c.toNat - 'a'.toNat + 10)
  else if 'A' ≤ c ∧ c ≤ 'Z' then some (c.toNat - 'A'.toNat + 10)
  else none

/-- Model of Rust `u32::from_str_radix` (and `str::parse::<u32>` for radix
10): an optional leading `+`, then a non-empty run of digits valid for the
radix; errors (and hence `none`) on any other character or on overflow past
`u32::MAX`. -/
def parseNatRadix (radix : Nat) (cs : List Char) : Option Nat :=
  let ds := match cs with
    | '+' :: t => t
    | _ => cs
  if ds.isEmpty then none
  else
    ds.foldl
      (fun acc c =>
        match acc, digitVal c with
        | some v, some d =>
          if d < radix ∧ v * radix + d < 2 ^ 32 then some (v * radix + d) else none
        | _, _ => none)
      (some 0)

/-- Rust `char::from_u32`: `some` exactly on Unicode scalar values. -/
def fromU32 (n : Nat) : Option Char :=
  if h : n.isValidChar then some (Char.ofNatAux n h) else none

/-- A Unicode block of the `unicode_blocks` crate: a closed codepoint
interval with accessors `start()` (`blockStart`) and `end()` (`blockEnd`). -/
structure UBlock where
  blockStart : Nat
  blockEnd : Nat
deriving DecidableEq

/-- The external Unicode data tables consumed by the program, kept abstract:
`char::is_alphabetic` (Rust core), `unicode_blocks::find_unicode_block`, the
nine general-category predicates of `finl_unicode` used by
`categories.rs::PropertyType`, and the `unicode_skeleton` visual-confusable
predicate.  Statements quantify over this record; concrete instantiations
for evaluation are defined near the theorems that use them. -/
structure UnicodeData where
  isAlphabetic : Char → Bool
  findBlock : Char → Option UBlock
  isLetterUppercase : Char → Bool
  isLetterLowercase : Char → Bool
  isSymbolMath : Char → Bool
  isSymbolCurrency : Char → Bool
  isPunctuation : Char → Bool
  isNumberDecimal : Char → Bool
  isLetter : Char → Bool
  isNumber : Char → Bool
  isSymbol : Char → Bool
  confusable : Char → Char → Bool

/-! ## categories.rs -/

/-- `categories.rs::PropertyType`. -/
inductive PropertyType
  | UppercaseLetters
  | LowercaseLetters
  | MathSymbols
  | CurrencySymbols
  | Punctuation
  | DecimalNumbers
  | AllLetters
  | AllNumbers
  | AllSymbols
deriving DecidableEq

/-- `categories.rs::PropertyType::matches` (delegates to `finl_unicode`). -/
def PropertyType.matchesProp (U : UnicodeData) : PropertyType → Char → Bool
  | .UppercaseLetters, c => U.isLetterUppercase c
  | .LowercaseLetters, c => U.isLetterLowercase c
  | .MathSymbols, c => U.isSymbolMath c
  | .CurrencySymbols, c => U.isSymbolCurrency c
  | .Punctuation, c => U.isPunctuation c
  | .DecimalNumbers, c => U.isNumberDecimal c
  | .AllLetters, c => U.isLetter c
  | .AllNumbers, c => U.isNumber c
  | .AllSymbols, c => U.isSymbol c

/-- `CharacterInspector::characters` for `unicode_blocks::UnicodeBlock`:
every valid scalar in `start()..=end()`, ascending. -/
def UBlock.characters (b : UBlock) : List Char :=
  (List.range' b.blockStart (b.blockEnd + 1 - b.blockStart)).filterMap fromU32

/-- `CharacterInspector::contains` for `unicode_blocks::UnicodeBlock`. -/
def UBlock.containsChar (b : UBlock) (c : Char) : Bool :=
  decide (b.blockStart ≤ c.toNat) && decide (c.toNat ≤ b.blockEnd)

/-- `categories.rs::UnicodeMultiBlock` (a list of blocks). -/
structure UnicodeMultiBlock where
  blocks : List UBlock

/-- `categories.rs::UnicodeCollection` (an `AHashSet<char>`, modelled by the
list of its elements; only membership and enumeration are used). -/
structure UnicodeCollection where
  chars : List Char

/-- `categories.rs::UnicodeCategory`. -/
inductive UnicodeCategory
  | Block (b : UBlock)
  | MultiBlock (m : UnicodeMultiBlock)
  | Collection (s : UnicodeCollection)
  | Property (p : PropertyType)

/-- The fixed ranges `UnicodeCategory::characters` scans for property-based
categories (`categories.rs`, the `ranges` list in the `Property` arm). -/
def propertyScanRanges : List (Nat × Nat) :=
  [(0x0020, 0x007E), (0x00A0, 0x024F), (0x0370, 0x052F), (0x2000, 0x206F),
   (0x2070, 0x218F), (0x2190, 0x21FF), (0x2200, 0x22FF), (0x20A0, 0x20CF),
   (0x2500, 0x257F), (0x2600, 0x26FF), (0x1F300, 0x1F5FF)]

/-- `CharacterInspector::characters` for `UnicodeCategory`. -/
def UnicodeCategory.characters (U : UnicodeData) : UnicodeCategory → List Char
  | .Block b => b.characters
  | .MultiBlock m => m.blocks.flatMap UBlock.characters
  | .Collection s => s.chars
  | .Property pt =>
    propertyScanRanges.flatMap fun r =>
      ((List.range' r.1 (r.2 + 1 - r.1)).filterMap fromU32).filter
        (PropertyType.matchesProp U pt)

/-- `CharacterInspector::contains` for `UnicodeCategory`. -/
def UnicodeCategory.containsChar (U : UnicodeData) : UnicodeCategory → Char → Bool
  | .Block b, c => b.containsChar c
  | .MultiBlock m, c => m.blocks.any (fun b => b.containsChar c)
  | .Collection s, c => s.chars.contains c
  | .Property pt, c => PropertyType.matchesProp U pt c

/-- Discriminator for the `Property` variant. -/
def UnicodeCategory.isPropertyBased : UnicodeCategory → Bool
  | .Property _ => true
  | _ => false

/-- `categories.rs::Category`: a named classifier.  `Category::id` is
`egui::Id::new(&self.name)`, a stable value derived only from the name;
it is modelled by the name itself. -/
structure Category where
  name : String
  unicode_category : UnicodeCategory

def Category.id (c : Category) : String := c.name

/-! ## search.rs -/

/-- `search.rs::SearchParams`. -/
structure SearchParams where
  text : String
  split_text : List String
  split_text_lower : List String
  search_only_categories : Bool
  search_name : Bool
  case_sensitive : Bool

/-- `SearchParams::new`: tokenizes the text on whitespace and, when not
case-sensitive, lowercases the tokens. -/
def SearchParams.new (text : String) (search_only_categories search_name case_sensitive : Bool) :
    SearchParams :=
  let split_text := splitWhitespace text
  { text
    split_text
    split_text_lower := if ¬ case_sensitive then split_text.map strLower else []
    search_only_categories
    search_name
    case_sensitive }

/-- `BTreeMap::get` on the ordered table (first entry with the key). -/
def lookupName (c : Char) : List (Char × String) → Option String
  | [] => none
  | (k, v) :: t => if c = k then some v else lookupName c t

/-- `SearchEngine::parse_hex_code`: trim and lowercase, then try `u+<hex>`,
then `0x<hex>`, then a bare string of at most 6 hex digits.  A successful
radix parse returns `char::from_u32(code)` directly (even when that is
`None`); a failed radix parse falls through to the next form. -/
def parse_hex_code (text : String) : Option Char :=
  let cleaned : List Char := (rustTrimList text.toList).map Char.toLower
  let plainHex : Option Char :=
    if cleaned.all isAsciiHexDigit && decide (cleaned.length ≤ 6) then
      match parseNatRadix 16 cleaned with
      | some code => fromU32 code
      | none => none
    else none
  let hex0x : Option Char :=
    match cleaned with
    | '0' :: 'x' :: hexDigits =>
      (match parseNatRadix 16 hexDigits with
       | some code => fromU32 code
       | none => plainHex)
    | _ => plainHex
  match cleaned with
  | 'u' :: '+' :: hexDigits =>
    (match parseNatRadix 16 hexDigits with
     | some code => fromU32 code
     | none => hex0x)
  | _ => hex0x

/-- The decimal tail of `SearchEngine::search_special_patterns` (lines
119–126): `text.parse::<u32>()`, `char::from_u32`, then an index lookup;
any failure yields `None`. -/
def decimal_code_step (text : String) (full_cache : List (Char × String)) :
    Option (List (Char × String)) :=
  match parseNatRadix 10 text.toList with
  | some code =>
    match fromU32 code with
    | some chr =>
      (match lookupName chr full_cache with
       | some name => some [(chr, name)]
       | none => none)
    | none => none
  | none => none

/-- The hex tail of `SearchEngine::search_special_patterns` (lines
112–117): on a hex parse that resolves to an in-index character return its
singleton table, otherwise fall through to the decimal tail. -/
def hex_code_step (text : String) (full_cache : List (Char × String)) :
    Option (List (Char × String)) :=
  match parse_hex_code text with
  | some chr =>
    (match lookupName chr full_cache with
     | some name => some [(chr, name)]
     | none => decimal_code_step text full_cache)
  | none => decimal_code_step text full_cache

/-- `SearchEngine::search_special_patterns`.  A single-character query that
is alphabetic is not treated specially (`None`); a single non-alphabetic
character yields its singleton entry if in the index, otherwise every index
entry of its Unicode block (when that set is non-empty); any remaining
query goes through the hex then decimal codepoint notations. -/
def search_special_patterns (U : UnicodeData) (text : String)
    (full_cache : List (Char × String)) : Option (List (Char × String)) :=
  match text.toList with
  | [chr] =>
    if U.isAlphabetic chr then none
    else
      match lookupName chr full_cache with
      | some name => some [(chr, name)]
      | none =>
        match U.findBlock chr with
        | some block =>
          let results := full_cache.filter fun p =>
            decide (block.blockStart ≤ p.1.toNat) && decide (p.1.toNat ≤ block.blockEnd)
          if results.isEmpty then hex_code_step text full_cache else some results
        | none => hex_code_step text full_cache
  | _ => hex_code_step text full_cache

/-- `SearchEngine::filter_by_categories`: restrict to the selected category
when one with the selected id exists, otherwise fall back to the full
cache. -/
def filter_by_categories (U : UnicodeData) (cache : List (Char × String))
    (categories : List Category) (selected_id : String) : List (Char × String) :=
  match categories.find? (fun cat => cat.id == selected_id) with
  | some category => cache.filter fun p => category.unicode_category.containsChar U p.1
  | none => cache

/-- The word-level test inside `SearchEngine::fuzzy_search`'s term closure:
short words/terms (byte length < 3) need equality or `word.starts_with(term)`;
longer ones use `sz_edit_distance ≤ MAX_EDIT_DISTANCE (= 2)`, except that in
case-sensitive mode a pair at positive distance whose lowercase forms agree
is rejected as a mere case difference. -/
def fuzzy_word_match (cs : Bool) (word term : String) : Bool :=
  if byteLen word < 3 ∨ byteLen term < 3 then
    word == term || strStartsWith word term
  else
    let distance := szEditDistance word term
    if cs ∧ distance > 0 then
      if strLower word = strLower term then false
      else decide (distance ≤ 2)
    else decide (distance ≤ 2)

/-- The per-record predicate of `SearchEngine::fuzzy_search` (the closure of
its `filter`): a character self-match, else all whitespace terms must match
the name by substring or by bounded edit distance on its words. -/
def fuzzy_matches (params : SearchParams) (p : Char × String) : Bool :=
  let chr_str := String.mk [p.1]
  let charMatch :=
    if params.case_sensitive then strContainsStr chr_str params.text
    else strContainsStr (strLower chr_str) (strLower params.text)
  if charMatch then true
  else
    let search_name := if params.case_sensitive then p.2 else strLower p.2
    let search_terms :=
      if params.case_sensitive then params.split_text else params.split_text_lower
    search_terms.all fun term =>
      strContainsStr search_name term ||
      (splitWhitespace search_name).any fun word =>
        fuzzy_word_match params.case_sensitive word term

/-- `SearchEngine::fuzzy_search` (MAX_EDIT_DISTANCE = 2). -/
def fuzzy_search (cache : List (Char × String)) (params : SearchParams) :
    List (Char × String) :=
  cache.filter (fuzzy_matches params)

/-- The per-record predicate of `SearchEngine::skeleton_search`: the query
contained in the one-character string of the record's character, or (when
name search is on) in its name, each side lowercased unless
case-sensitive. -/
def skeleton_matches (params : SearchParams) (p : Char × String) : Bool :=
  let chr_str := String.mk [p.1]
  let char_matches :=
    if params.case_sensitive then strContainsStr chr_str params.text
    else strContainsStr (strLower chr_str) (strLower params.text)
  let name_matches :=
    if params.search_name then
      if params.case_sensitive then strContainsStr p.2 params.text
      else strContainsStr (strLower p.2) (strLower params.text)
    else false
  char_matches || name_matches

/-- `SearchEngine::skeleton_search`. -/
def skeleton_search (cache : List (Char × String)) (params : SearchParams) :
    List (Char × String) :=
  if params.split_text.isEmpty then cache
  else cache.filter (skeleton_matches params)

/-- `SearchEngine::apply_search_filters`. -/
def apply_search_filters (cache : List (Char × String)) (params : SearchParams) :
    List (Char × String) :=
  if params.search_name && !params.split_text.isEmpty then fuzzy_search cache params
  else skeleton_search cache params

/-- `SearchEngine::search`: empty text returns the full table; then special
patterns short-circuit; then the optional category restriction and the
name/character filters. -/
def search (U : UnicodeData) (params : SearchParams) (full_cache : List (Char × String))
    (categories : List Category) (selected_category_id : String) :
    List (Char × String) :=
  if params.text.isEmpty then full_cache
  else
    match search_special_patterns U params.text full_cache with
    | some results => results
    | none =>
      let base_cache :=
        if params.search_only_categories then
          filter_by_categories U full_cache categories selected_category_id
        else full_cache
      apply_search_filters base_cache params

/-! ## app.rs: the recently-used list -/

/-- The recently-used update of `app.rs` (`GlyphanaApp::update`, lines
986–992): `push_back` the clicked character and, when the length *before*
the push (the `recently_used` clone taken earlier in the frame) has reached
`recently_used_max_len`, `pop_front` the oldest entry. -/
def recently_used_insert (max_len : Nat) (recently_used : List Char) (chr : Char) :
    List Char :=
  let pushed := recently_used ++ [chr]
  if max_len ≤ recently_used.length then pushed.tail else pushed

/-! ## Claim-side predicates (stated from the spec's words, for refinement
comparison with the code-side definitions above) -/

/-- Case normalization as the spec words it: fold case unless
case-sensitive. -/
def normCase (cs : Bool) (s : String) : String := if cs then s else strLower s

/-- The fuzzy-matching pass condition exactly as claim C5 states it: for
every whitespace term, the (case-folded unless case-sensitive) name contains
the term, or some whitespace word of the name is within Levenshtein distance
2 of the term, short words/terms requiring equality or a prefix match.
Stated from the claim's words — it has no character self-match and no
case-difference rejection — to be compared against `fuzzy_matches`. -/
def spec_fuzzy_passes (params : SearchParams) (name : String) : Bool :=
  let n := if params.case_sensitive then name else strLower name
  let terms := if params.case_sensitive then params.split_text else params.split_text_lower
  terms.all fun term =>
    strContainsStr n term ||
    (splitWhitespace n).any fun word =>
      if byteLen word < 3 ∨ byteLen term < 3 then word == term || strStartsWith word term
      else decide (szEditDistance word term ≤ 2)

/-- The non-fuzzy pass condition exactly as claim C8 states it: the
character (as a one-character string, case-normalized unless case-sensitive)
is contained in the raw query; or, with name search enabled, the name
contains the query; or the character is visually confusable with some
character of the query.  Stated from the claim's words, to be compared
against `skeleton_matches`. -/
def spec_skeleton_passes (U : UnicodeData) (params : SearchParams) (p : Char × String) :
    Bool :=
  let chrN := if params.case_sensitive then String.mk [p.1] else strLower (String.mk [p.1])
  strContainsStr params.text chrN ||
  (params.search_name && strContainsStr p.2 params.text) ||
  params.text.toList.any (fun qc => U.confusable p.1 qc)

/-! ## Concrete Unicode data used for evaluation

The theorems below quantify over `UnicodeData`.  For the closed statements
(witnesses and counterexamples) we instantiate it with `asciiData`, the
restriction of the real tables to ASCII: every field agrees with the Rust
crates' answer on every ASCII character, and every character on which a
closed statement below evaluates a field of `asciiData` is ASCII.  The
`confusable` field is instantiated with skeleton equality on identical
characters, which likewise agrees with `unicode_skeleton::confusable` on the
(equal or ASCII) pairs it is evaluated on. -/

/-- ASCII general categories and the Basic Latin block (U+0000–U+007F), as
the Unicode tables give them on ASCII. -/
def asciiData : UnicodeData where
  isAlphabetic c := c.isAlpha
  findBlock c := if c.toNat ≤ 0x7F then some ⟨0x0, 0x7F⟩ else none
  isLetterUppercase c := 'A' ≤ c && c ≤ 'Z'
  isLetterLowercase c := 'a' ≤ c && c ≤ 'z'
  isSymbolMath c := c ∈ ['+', '<', '=', '>', '|', '~']
  isSymbolCurrency c := c = '$'
  isPunctuation c :=
    c ∈ ['!', '"', '#', '%', '&', '\'', '(', ')', '*', ',', '-', '.', '/',
         ':', ';', '?', '@', '[', '\\', ']', '_', '{', '}']
  isNumberDecimal c := c.isDigit
  isLetter c := c.isAlpha
  isNumber c := c.isDigit
  isSymbol c := c ∈ ['$', '+', '<', '=', '>', '^', '`', '|', '~']
  confusable a b := a = b

/-- The Unicode `Sc` (currency symbol) general category, the data behind
`finl_unicode`'s `is_symbol_currency`. -/
def scTable (c : Char) : Bool :=
  let n := c.toNat
  n = 0x24 || (0xA2 ≤ n && n ≤ 0xA5) || n = 0x58F || n = 0x60B ||
  (0x7FE ≤ n && n ≤ 0x7FF) || (0x9F2 ≤ n && n ≤ 0x9F3) || n = 0x9FB ||
  n = 0xAF1 || n = 0xBF9 || n = 0xE3F || n = 0x17DB ||
  (0x20A0 ≤ n && n ≤ 0x20C0) || n = 0xA838 || n = 0xFDFC || n = 0xFE69 ||
  n = 0xFF04 || (0xFFE0 ≤ n && n ≤ 0xFFE1) || (0xFFE5 ≤ n && n ≤ 0xFFE6) ||
  (0x11FDD ≤ n && n ≤ 0x11FE0) || n = 0x1E2FF || n = 0x1ECB0

/-- `asciiData` with the full `Sc` table for `is_symbol_currency`.  The
statements below evaluate only that field of this record (the classifier
variant they exercise is `Property CurrencySymbols`). -/
def currencyData : UnicodeData := { asciiData with isSymbolCurrency := scTable }

/-! ## Basic bridging lemmas -/

theorem char_le_iff {c d : Char} : c ≤ d ↔ c.toNat ≤ d.toNat := by
  rw [Char.le_def, UInt32.le_def, BitVec.le_def]
  exact Iff.rfl

theorem char_ne_of_toNat_ne {c d : Char} (h : c.toNat ≠ d.toNat) : c ≠ d :=
  fun he => h (he ▸ rfl)

theorem toNat_ofNatAux {n : Nat} (h : n.isValidChar) : (Char.ofNatAux n h).toNat = n := rfl

theorem fromU32_toNat (c : Char) : fromU32 c.toNat = some c := by
  have h : c.toNat.isValidChar := c.valid
  unfold fromU32
  rw [dif_pos h]
  have h2 := Char.ofNat_toNat c
  rw [Char.ofNat, dif_pos h] at h2
  rw [h2]

theorem toNat_of_fromU32 {n : Nat} {c : Char} (h : fromU32 n = some c) : c.toNat = n := by
  unfold fromU32 at h
  split at h
  · cases h
    rfl
  · cases h

theorem lookupName_mem {c : Char} {n : String} :
    ∀ {l : List (Char × String)}, lookupName c l = some n → (c, n) ∈ l
  | [], h => by cases h
  | (k, v) :: t, h => by
    unfold lookupName at h
    split at h
    · cases h
      subst k
      exact List.mem_cons_self _ _
    · exact List.mem_cons_of_mem _ (lookupName_mem h)

theorem isInfixCheck_iff {pat l : List Char} : isInfixCheck pat l = true ↔ pat <:+: l := by
  induction l with
  | nil =>
    simp only [isInfixCheck, List.isEmpty_iff, List.infix_nil]
  | cons c rest ih =>
    simp only [isInfixCheck, Bool.or_eq_true, List.isPrefixOf_iff_prefix, ih,
      List.infix_cons_iff]

theorem strContainsStr_iff {s pat : String} :
    strContainsStr s pat = true ↔ pat.toList <:+: s.toList := isInfixCheck_iff

theorem strStartsWith_iff {s pat : String} :
    strStartsWith s pat = true ↔ pat.toList <+: s.toList := List.isPrefixOf_iff_prefix

/-! ## Sublist structure of the search pipeline -/

theorem decimal_step_sublist {text : String} {cache r : List (Char × String)}
    (h : decimal_code_step text cache = some r) : r.Sublist cache := by
  unfold decimal_code_step at h
  split at h
  · split at h
    · split at h
      · cases h
        exact List.singleton_sublist.mpr (lookupName_mem (by assumption))
      · cases h
    · cases h
  · cases h

theorem hex_step_sublist {text : String} {cache r : List (Char × String)}
    (h : hex_code_step text cache = some r) : r.Sublist cache := by
  unfold hex_code_step at h
  split at h
  · split at h
    · cases h
      exact List.singleton_sublist.mpr (lookupName_mem (by assumption))
    · exact decimal_step_sublist h
  · exact decimal_step_sublist h

theorem special_sublist {U : UnicodeData} {text : String} {cache r : List (Char × String)}
    (h : search_special_patterns U text cache = some r) : r.Sublist cache := by
  unfold search_special_patterns at h
  split at h
  · split at h
    · cases h
    · split at h
      · cases h
        exact List.singleton_sublist.mpr (lookupName_mem (by assumption))
      · split at h
        · dsimp only at h
          split at h
          · exact hex_step_sublist h
          · cases h
            exact List.filter_sublist _
        · exact hex_step_sublist h
  · exact hex_step_sublist h

theorem base_cache_sublist (U : UnicodeData) (cache : List (Char × String))
    (cats : List Category) (sel : String) :
    (filter_by_categories U cache cats sel).Sublist cache := by
  unfold filter_by_categories
  split
  · exact List.filter_sublist _
  · exact List.Sublist.refl _

theorem apply_filters_sublist (cache : List (Char × String)) (params : SearchParams) :
    (apply_search_filters cache params).Sublist cache := by
  unfold apply_search_filters
  split
  · exact List.filter_sublist _
  · unfold skeleton_search
    split
    · exact List.Sublist.refl _
    · exact List.filter_sublist _

theorem search_sublist (U : UnicodeData) (params : SearchParams)
    (cache : List (Char × String)) (cats : List Category) (sel : String) :
    (search U params cache cats sel).Sublist cache := by
  unfold search
  split
  · exact List.Sublist.refl _
  · split
    · exact special_sublist (by assumption)
    · refine (apply_filters_sublist _ _).trans ?_
      split
      · exact base_cache_sublist _ _ _ _
      · exact List.Sublist.refl _

theorem special_empty_none (U : UnicodeData) (cache : List (Char × String)) :
    search_special_patterns U "" cache = none := rfl

/-! ## Claim theorems -/

/-- C2: with empty query text, `SearchEngine::search` returns the full index
unchanged — same codepoints, same names, same cardinality, same (codepoint)
order — for every index, category list and selection. -/
theorem c2_empty_query_identity (U : UnicodeData) (params : SearchParams)
    (cache : List (Char × String)) (cats : List Category) (sel : String)
    (h : params.text = "") : search U params cache cats sel = cache := by
  unfold search
  rw [h]
  rfl

/-- Witness for C2 at a concrete index, with category restriction and both
filters switched on. -/
theorem c2_empty_query_identity_witness :
    search asciiData (SearchParams.new "" true true true)
      [('A', "Latin Capital Letter A"), ('a', "Latin Small Letter a")]
      [⟨"Greek", .Block ⟨0x370, 0x3FF⟩⟩] "Greek" =
      [('A', "Latin Capital Letter A"), ('a', "Latin Small Letter a")] :=
  c2_empty_query_identity _ _ _ _ _ rfl

/-- C3: for every query and parameter combination the result of
`SearchEngine::search` is a sublist of the full index — every returned
codepoint is an index entry carrying the index's name — and, whenever the
index is in strictly ascending codepoint order, so is the result, with no
re-sort step. -/
theorem c3_order_invariant (U : UnicodeData) (params : SearchParams)
    (cache : List (Char × String)) (cats : List Category) (sel : String) :
    (search U params cache cats sel).Sublist cache ∧
      (cache.Pairwise (fun a b => a.1 < b.1) →
        (search U params cache cats sel).Pairwise (fun a b => a.1 < b.1)) :=
  ⟨search_sublist U params cache cats sel,
   fun h => h.sublist (search_sublist U params cache cats sel)⟩

/-- Witness for C3 on a concrete sorted index and query. -/
theorem c3_order_invariant_witness :
    (search asciiData (SearchParams.new "a" false true false)
        [('A', "Latin Capital Letter A"), ('a', "Latin Small Letter a")] [] "s").Sublist
      [('A', "Latin Capital Letter A"), ('a', "Latin Small Letter a")] ∧
    (search asciiData (SearchParams.new "a" false true false)
        [('A', "Latin Capital Letter A"), ('a', "Latin Small Letter a")] [] "s").Pairwise
      (fun a b => a.1 < b.1) :=
  ⟨(c3_order_invariant _ _ _ _ _).1,
   (c3_order_invariant _ _ _ _ _).2 (by decide)⟩

/-- C1: whenever the query resolves through the special-pattern path (a
literal in-index character, a codepoint notation resolving in-index, or the
block-convenience result), `SearchEngine::search` returns exactly that
result, before and regardless of the category restriction and of the
name/substring filters; in particular `search("U+0041")` on any index
containing `'A'` returns exactly the single entry for `'A'`, for every
combination of the three boolean flags, every category list and every
selection. -/
theorem c1_exact_lookup_precedence :
    (∀ (U : UnicodeData) (params : SearchParams) (cache r : List (Char × String))
       (cats : List Category) (sel : String),
       search_special_patterns U params.text cache = some r →
       search U params cache cats sel = r) ∧
    (∀ (U : UnicodeData) (cache : List (Char × String)) (cats : List Category)
       (sel : String) (soc sn cs : Bool) (name : String),
       lookupName 'A' cache = some name →
       search U (SearchParams.new "U+0041" soc sn cs) cache cats sel = [('A', name)]) := by
  constructor
  · intro U params cache r cats sel h
    have hne : params.text.isEmpty = false := by
      cases hemp : params.text.isEmpty
      · rfl
      · rw [(String.isEmpty_iff _).mp hemp, special_empty_none] at h
        cases h
    unfold search
    rw [hne, h]
    rfl
  · intro U cache cats sel soc sn cs name hA
    have hspec : search_special_patterns U "U+0041" cache =
        (match lookupName 'A' cache with
         | some n => some [('A', n)]
         | none => decimal_code_step "U+0041" cache) := rfl
    rw [hA] at hspec
    unfold search
    rw [show (SearchParams.new "U+0041" soc sn cs).text = "U+0041" from rfl, hspec]
    rfl

/-- Witness for C1: a concrete index containing `'A'` and a Greek letter,
with the category restriction enabled and pointing at a Greek-only category
that does not contain `'A'` — the codepoint notation still wins. -/
theorem c1_exact_lookup_precedence_witness :
    lookupName 'A' [('A', "Latin Capital Letter A"), ('α', "Greek Small Letter Alpha")] =
      some "Latin Capital Letter A" ∧
    search asciiData (SearchParams.new "U+0041" true true true)
      [('A', "Latin Capital Letter A"), ('α', "Greek Small Letter Alpha")]
      [⟨"Greek", .Block ⟨0x370, 0x3FF⟩⟩] "Greek" = [('A', "Latin Capital Letter A")] :=
  ⟨rfl, c1_exact_lookup_precedence.2 asciiData _ _ _ _ _ _ _ rfl⟩

/-- C6 counterexample: the recently-used update performs no
dedup-on-reinsert.  With bound 3 and list `['a', 'b']` (`'a'` oldest,
`'b'` most recent), re-inserting the already-present `'a'` appends a
duplicate and grows the list from length 2 to length 3, instead of moving
`'a'` to the most-recent end at unchanged length. -/
theorem c6_recently_used_counterexample :
    recently_used_insert 3 ['a', 'b'] 'a' = ['a', 'b', 'a'] ∧
    ¬ (recently_used_insert 3 ['a', 'b'] 'a').length = (['a', 'b'] : List Char).length := by
  constructor
  · rfl
  · decide

/-- C6 amended: the update appends the clicked codepoint at the most-recent
(back) end with no deduplication — below the bound the list always grows by
one, even on re-insertion of a present codepoint; once the pre-insertion
length has reached the bound `N`, the oldest (front) entry is evicted; in
particular a list whose length is at most `N` stays at length at most `N`. -/
theorem c6_recently_used_amended (N : Nat) (l : List Char) (c : Char) :
    (l.length < N → recently_used_insert N l c = l ++ [c]) ∧
    (N ≤ l.length → l ≠ [] → recently_used_insert N l c = l.tail ++ [c]) ∧
    (l.length ≤ N → (recently_used_insert N l c).length ≤ N) := by
  refine ⟨fun h => ?_, fun h hne => ?_, fun h => ?_⟩
  · unfold recently_used_insert
    rw [if_neg (by omega)]
  · unfold recently_used_insert
    rw [if_pos h]
    cases l with
    | nil => exact absurd rfl hne
    | cons a t => rfl
  · unfold recently_used_insert
    split
    · simp only [List.length_tail, List.length_append, List.length_singleton]
      omega
    · simp only [List.length_append, List.length_singleton]
      omega

/-- Witness for C6 amended: at the bound (N = 2, two entries), inserting a
new codepoint evicts the front entry `'a'`. -/
theorem c6_recently_used_amended_witness :
    recently_used_insert 2 ['a', 'b'] 'c' = ['b', 'c'] ∧
    (recently_used_insert 2 ['a', 'b'] 'c').length ≤ 2 :=
  ⟨(c6_recently_used_amended 2 ['a', 'b'] 'c').2.1 (by decide) (by decide),
   (c6_recently_used_amended 2 ['a', 'b'] 'c').2.2 (by decide)⟩

/-- C9: a single-character query whose character is alphabetic is excluded
from the special-pattern (exact-lookup) short-circuit, so `search` runs the
normal category/filter pipeline on it; concretely, on the index
`{A, a}`, `search("a")` case-insensitively returns both entries and
case-sensitively returns only `'a'`. -/
theorem c9_alphabetic_exclusion :
    (∀ (U : UnicodeData) (params : SearchParams) (cache : List (Char × String))
       (cats : List Category) (sel : String) (c : Char),
       params.text.toList = [c] → U.isAlphabetic c = true →
       search U params cache cats sel =
         apply_search_filters
           (if params.search_only_categories then filter_by_categories U cache cats sel
            else cache) params) ∧
    search asciiData (SearchParams.new "a" false false false)
      [('A', "Latin Capital Letter A"), ('a', "Latin Small Letter A")] [] "s" =
      [('A', "Latin Capital Letter A"), ('a', "Latin Small Letter A")] ∧
    search asciiData (SearchParams.new "a" false false true)
      [('A', "Latin Capital Letter A"), ('a', "Latin Small Letter A")] [] "s" =
      [('a', "Latin Small Letter A")] := by
  refine ⟨fun U params cache cats sel c h h2 => ?_, by decide, by decide⟩
  have htne : params.text.isEmpty = false := by
    cases hemp : params.text.isEmpty
    · rfl
    · rw [(String.isEmpty_iff _).mp hemp] at h
      simp at h
  have hspec : search_special_patterns U params.text cache = none := by
    unfold search_special_patterns
    rw [h]
    simp [h2]
  unfold search
  rw [htne, hspec]
  rfl

/-- Witness for C9's universal part: the single alphabetic query `"b"` on an
index containing `'b'` goes through the normal filter pipeline (and so does
not short-circuit to the exact entry). -/
theorem c9_alphabetic_exclusion_witness :
    ("b" : String).toList = ['b'] ∧ asciiData.isAlphabetic 'b' = true ∧
    search asciiData (SearchParams.new "b" false false false)
      [('B', "Latin Capital Letter B"), ('b', "Latin Small Letter B")] [] "s" =
      apply_search_filters
        (if (SearchParams.new "b" false false false).search_only_categories then
          filter_by_categories asciiData
            [('B', "Latin Capital Letter B"), ('b', "Latin Small Letter B")] [] "s"
         else [('B', "Latin Capital Letter B"), ('b', "Latin Small Letter B")])
        (SearchParams.new "b" false false false) :=
  ⟨rfl, rfl, c9_alphabetic_exclusion.1 asciiData _ _ _ _ 'b' rfl rfl⟩

/-- C4 counterexample: on an index containing `'A'` (U+0041) *and*
`'e'` (U+0065), the three queries do not agree — `"65"` is consumed by the
hex parse first (0x65 = `'e'`), so `search("65")` returns the entry for
`'e'` while `search("U+0041")` returns the entry for `'A'`. -/
theorem c4_decimal_hex_counterexample :
    search asciiData (SearchParams.new "65" false false false)
      [('A', "Latin Capital Letter A"), ('e', "Latin Small Letter E")] [] "s" =
      [('e', "Latin Small Letter E")] ∧
    search asciiData (SearchParams.new "U+0041" false false false)
      [('A', "Latin Capital Letter A"), ('e', "Latin Small Letter E")] [] "s" =
      [('A', "Latin Capital Letter A")] ∧
    ¬ ([('e', "Latin Small Letter E")] =
        ([('A', "Latin Capital Letter A")] : List (Char × String))) :=
  ⟨by decide, by decide, by decide⟩

/-- C4 amended: on an index that contains `'A'` and does *not* contain
`'e'` (U+0065, the character the hex reading of `"65"` resolves to), the
three queries `"65"`, `"0x41"` and `"U+0041"` all return the identical
single-entry result for `'A'`, for every flag combination, category list
and selection. -/
theorem c4_decimal_hex_equivalence_amended (U : UnicodeData)
    (cache : List (Char × String)) (cats : List Category) (sel : String)
    (soc sn cs : Bool) (nA : String)
    (hA : lookupName 'A' cache = some nA) (he : lookupName 'e' cache = none) :
    search U (SearchParams.new "65" soc sn cs) cache cats sel = [('A', nA)] ∧
    search U (SearchParams.new "0x41" soc sn cs) cache cats sel = [('A', nA)] ∧
    search U (SearchParams.new "U+0041" soc sn cs) cache cats sel = [('A', nA)] := by
  refine ⟨?_, ?_, ?_⟩
  · have hdec : decimal_code_step "65" cache =
        (match lookupName 'A' cache with
         | some n => some [('A', n)]
         | none => none) := rfl
    rw [hA] at hdec
    have hspec : search_special_patterns U "65" cache =
        (match lookupName 'e' cache with
         | some n => some [('e', n)]
         | none => decimal_code_step "65" cache) := rfl
    rw [he, hdec] at hspec
    unfold search
    rw [show (SearchParams.new "65" soc sn cs).text = "65" from rfl, hspec]
    rfl
  · have hspec : search_special_patterns U "0x41" cache =
        (match lookupName 'A' cache with
         | some n => some [('A', n)]
         | none => decimal_code_step "0x41" cache) := rfl
    rw [hA] at hspec
    unfold search
    rw [show (SearchParams.new "0x41" soc sn cs).text = "0x41" from rfl, hspec]
    rfl
  · have hspec : search_special_patterns U "U+0041" cache =
        (match lookupName 'A' cache with
         | some n => some [('A', n)]
         | none => decimal_code_step "U+0041" cache) := rfl
    rw [hA] at hspec
    unfold search
    rw [show (SearchParams.new "U+0041" soc sn cs).text = "U+0041" from rfl, hspec]
    rfl

/-- Witness for C4 amended on the singleton index `{A}` (which does not
contain `'e'`). -/
theorem c4_decimal_hex_equivalence_amended_witness :
    search asciiData (SearchParams.new "65" false false false)
      [('A', "Latin Capital Letter A")] [] "s" = [('A', "Latin Capital Letter A")] ∧
    search asciiData (SearchParams.new "0x41" false false false)
      [('A', "Latin Capital Letter A")] [] "s" = [('A', "Latin Capital Letter A")] ∧
    search asciiData (SearchParams.new "U+0041" false false false)
      [('A', "Latin Capital Letter A")] [] "s" = [('A', "Latin Capital Letter A")] :=
  c4_decimal_hex_equivalence_amended asciiData _ [] "s" false false false _ rfl rfl

theorem fuzzy_word_match_iff (cs : Bool) (word term : String) :
    fuzzy_word_match cs word term = true ↔
      ((byteLen word < 3 ∨ byteLen term < 3) ∧
        (word = term ∨ term.toList.IsPrefix word.toList)) ∨
      (3 ≤ byteLen word ∧ 3 ≤ byteLen term ∧ szEditDistance word term ≤ 2 ∧
        (cs = true → 0 < szEditDistance word term → strLower word ≠ strLower term)) := by
  unfold fuzzy_word_match
  by_cases hshort : byteLen word < 3 ∨ byteLen term < 3
  · rw [if_pos hshort]
    simp only [Bool.or_eq_true, beq_iff_eq, strStartsWith_iff]
    constructor
    · intro h
      exact Or.inl ⟨hshort, h⟩
    · rintro (⟨_, h⟩ | ⟨h3, h4, _⟩)
      · exact h
      · omega
  · rw [if_neg hshort]
    push_neg at hshort
    dsimp only
    by_cases hcs : cs = true ∧ szEditDistance word term > 0
    · rw [if_pos hcs]
      by_cases hlow : strLower word = strLower term
      · rw [if_pos hlow]
        constructor
        · intro h
          cases h
        · rintro (⟨hs, _⟩ | ⟨_, _, _, himp⟩)
          · omega
          · exact absurd hlow (himp hcs.1 hcs.2)
      · rw [if_neg hlow]
        simp only [decide_eq_true_eq]
        constructor
        · intro h
          exact Or.inr ⟨hshort.1, hshort.2, h, fun _ _ => hlow⟩
        · rintro (⟨hs, _⟩ | ⟨_, _, h, _⟩)
          · omega
          · exact h
    · rw [if_neg hcs]
      simp only [decide_eq_true_eq]
      constructor
      · intro h
        exact Or.inr ⟨hshort.1, hshort.2, h, fun hc hd => absurd ⟨hc, hd⟩ hcs⟩
      · rintro (⟨hs, _⟩ | ⟨_, _, h, _⟩)
        · omega
        · exact h

/-- C5 counterexample: the claim's pass condition (every term matches the
name by substring or by edit distance ≤ 2) is not equivalent to the code's.
(1) A record whose *character* string contains the query passes
`fuzzy_search` even though no term matches its name: query `"h"`
(case-sensitive) on the record `('h', "Xyz")`.  (2) In case-sensitive mode
the code rejects a word/term pair at positive edit distance whose lowercase
forms agree: query `"hyphen"` (case-sensitive) on the record
`('-', "Hyphen")` — distance 1 ≤ 2, so the claim says it matches, but the
code refuses the case-only difference. -/
theorem c5_fuzzy_counterexample :
    fuzzy_matches (SearchParams.new "h" false true true) ('h', "Xyz") = true ∧
    spec_fuzzy_passes (SearchParams.new "h" false true true) "Xyz" = false ∧
    search asciiData (SearchParams.new "h" false true true) [('h', "Xyz")] [] "s" =
      [('h', "Xyz")] ∧
    fuzzy_matches (SearchParams.new "hyphen" false true true) ('-', "Hyphen") = false ∧
    spec_fuzzy_passes (SearchParams.new "hyphen" false true true) "Hyphen" = true :=
  ⟨by decide, by decide, by decide, by decide, by decide⟩

/-- C5 amended: a record passes `fuzzy_search` iff its character string
(case-folded unless case-sensitive) contains the query text, or for every
whitespace term the (case-folded unless case-sensitive) name contains the
term as a substring or some whitespace word of the name fuzzy-matches the
term — where a word/term pair with either side shorter than 3 bytes needs
equality or `term`-is-a-prefix-of-`word`, and a longer pair needs
Levenshtein distance ≤ 2 and additionally, in case-sensitive mode, must not
be a mere case difference (positive distance with equal lowercase forms is
rejected).  The claim's concrete instances hold: on a record named
`"Hyphen"`, the query `"hypen"` (distance 1) matches and `"hzpxn"`
(distance 3) does not. -/
theorem c5_fuzzy_characterization_amended :
    (∀ (params : SearchParams) (chr : Char) (name : String),
      fuzzy_matches params (chr, name) = true ↔
        ((normCase params.case_sensitive params.text).toList.IsInfix
            (normCase params.case_sensitive (String.mk [chr])).toList ∨
          ∀ term ∈ (if params.case_sensitive then params.split_text
                    else params.split_text_lower),
            term.toList.IsInfix (normCase params.case_sensitive name).toList ∨
            ∃ word ∈ splitWhitespace (normCase params.case_sensitive name),
              ((byteLen word < 3 ∨ byteLen term < 3) ∧
                (word = term ∨ term.toList.IsPrefix word.toList)) ∨
              (3 ≤ byteLen word ∧ 3 ≤ byteLen term ∧ szEditDistance word term ≤ 2 ∧
                (params.case_sensitive = true → 0 < szEditDistance word term →
                  strLower word ≠ strLower term)))) ∧
    search asciiData (SearchParams.new "hypen" false true false) [('-', "Hyphen")] [] "s" =
      [('-', "Hyphen")] ∧
    search asciiData (SearchParams.new "hzpxn" false true false) [('-', "Hyphen")] [] "s" =
      [] := by
  refine ⟨fun params chr name => ?_, by decide, by decide⟩
  unfold fuzzy_matches
  dsimp only
  by_cases hchar :
      (if params.case_sensitive then strContainsStr (String.mk [chr]) params.text
       else strContainsStr (strLower (String.mk [chr])) (strLower params.text)) = true
  · rw [if_pos hchar]
    have hinf : (normCase params.case_sensitive params.text).toList.IsInfix
        (normCase params.case_sensitive (String.mk [chr])).toList := by
      cases hcs : params.case_sensitive
      · rw [hcs] at hchar
        simp only [if_neg Bool.false_ne_true] at hchar
        simpa [normCase] using strContainsStr_iff.mp hchar
      · rw [hcs] at hchar
        simp only [if_pos rfl] at hchar
        simpa [normCase] using strContainsStr_iff.mp hchar
    exact iff_of_true rfl (Or.inl hinf)
  · rw [if_neg hchar]
    have hninf : ¬ (normCase params.case_sensitive params.text).toList.IsInfix
        (normCase params.case_sensitive (String.mk [chr])).toList := by
      intro hinf
      apply hchar
      cases hcs : params.case_sensitive
      · simp only [hcs, if_neg Bool.false_ne_true]
        rw [hcs] at hinf
        simp only [normCase, if_neg Bool.false_ne_true] at hinf
        exact strContainsStr_iff.mpr hinf
      · simp only [hcs, if_pos rfl]
        rw [hcs] at hinf
        simp only [normCase, if_pos rfl] at hinf
        exact strContainsStr_iff.mpr hinf
    rw [iff_comm, or_iff_right hninf, iff_comm]
    cases hcs : params.case_sensitive
    · simp [normCase, List.all_eq_true, Bool.or_eq_true, strContainsStr_iff,
        List.any_eq_true, fuzzy_word_match_iff, hcs]
    · simp [normCase, List.all_eq_true, Bool.or_eq_true, strContainsStr_iff,
        List.any_eq_true, fuzzy_word_match_iff, hcs]

/-- Witness for C5 amended at a concrete record, query and parameter set
(the fuzzy pass of query `"hypen"` against the record `('-', "Hyphen")`,
case-insensitively). -/
theorem c5_fuzzy_characterization_amended_witness :
    fuzzy_matches (SearchParams.new "hypen" false true false) ('-', "Hyphen") = true ↔
      ((normCase false "hypen").toList.IsInfix (normCase false (String.mk ['-'])).toList ∨
        ∀ term ∈ (SearchParams.new "hypen" false true false).split_text_lower,
          term.toList.IsInfix (normCase false "Hyphen").toList ∨
          ∃ word ∈ splitWhitespace (normCase false "Hyphen"),
            ((byteLen word < 3 ∨ byteLen term < 3) ∧
              (word = term ∨ term.toList.IsPrefix word.toList)) ∨
            (3 ≤ byteLen word ∧ 3 ≤ byteLen term ∧ szEditDistance word term ≤ 2 ∧
              (false = true → 0 < szEditDistance word term →
                strLower word ≠ strLower term))) :=
  c5_fuzzy_characterization_amended.1 (SearchParams.new "hypen" false true false) '-' "Hyphen"

/-- C8 counterexample: `SearchEngine::skeleton_search` checks whether the
*query* is contained in the character's one-character string (not the
reverse) and performs no confusable matching at all.  On the index
`{('a', "x")}` with the case-sensitive query `"ab"` and name search off, the
claim's condition holds for the record (its character `'a'` is contained in
the raw query `"ab"`, and `'a'` is trivially confusable with itself), yet
`search` returns the empty table. -/
theorem c8_skeleton_counterexample :
    spec_skeleton_passes asciiData (SearchParams.new "ab" false false true) ('a', "x") = true ∧
    skeleton_matches (SearchParams.new "ab" false false true) ('a', "x") = false ∧
    search asciiData (SearchParams.new "ab" false false true) [('a', "x")] [] "s" = [] :=
  ⟨by decide, by decide, by decide⟩

/-- C8 amended: in non-fuzzy search with a whitespace-nonempty query, a
record passes `SearchEngine::skeleton_search` iff the query (case-normalized
unless case-sensitive) is contained as a substring in the record's
one-character string, or — when name search is enabled — in the record's
name (both case-normalized unless case-sensitive); no confusable matching is
consulted. -/
theorem c8_skeleton_characterization_amended (params : SearchParams)
    (cache : List (Char × String)) (chr : Char) (name : String)
    (h : params.split_text.isEmpty = false) :
    (chr, name) ∈ skeleton_search cache params ↔
      ((chr, name) ∈ cache ∧
        ((normCase params.case_sensitive params.text).toList.IsInfix
            (normCase params.case_sensitive (String.mk [chr])).toList ∨
          (params.search_name = true ∧
            (normCase params.case_sensitive params.text).toList.IsInfix
              (normCase params.case_sensitive name).toList))) := by
  unfold skeleton_search
  rw [h]
  simp only [Bool.false_eq_true, if_false, List.mem_filter]
  refine and_congr_right fun _ => ?_
  unfold skeleton_matches
  dsimp only
  cases hcs : params.case_sensitive <;> cases hsn : params.search_name <;>
    simp [normCase, hcs, hsn, strContainsStr_iff]

/-- Witness for C8 amended: case-insensitive name search for `"small"` on
the record `('a', "Latin Small Letter A")`. -/
theorem c8_skeleton_characterization_amended_witness :
    (SearchParams.new "small" false true false).split_text.isEmpty = false ∧
    (('a', "Latin Small Letter A") ∈
        skeleton_search [('a', "Latin Small Letter A")]
          (SearchParams.new "small" false true false) ↔
      (('a', "Latin Small Letter A") ∈ [('a', "Latin Small Letter A")] ∧
        ((normCase false "small").toList.IsInfix
            (normCase false (String.mk ['a'])).toList ∨
          (true = true ∧
            (normCase false "small").toList.IsInfix
              (normCase false "Latin Small Letter A").toList)))) :=
  ⟨rfl, c8_skeleton_characterization_amended (SearchParams.new "small" false true false)
    [('a', "Latin Small Letter A")] 'a' "Latin Small Letter A" rfl⟩

theorem ublock_mem_characters {b : UBlock} {c : Char} :
    c ∈ b.characters ↔ b.blockStart ≤ c.toNat ∧ c.toNat ≤ b.blockEnd := by
  unfold UBlock.characters
  rw [List.mem_filterMap]
  constructor
  · rintro ⟨n, hn, hf⟩
    have ht := toNat_of_fromU32 hf
    rw [List.mem_range'_1] at hn
    omega
  · rintro ⟨h1, h2⟩
    exact ⟨c.toNat, List.mem_range'_1.mpr ⟨h1, by omega⟩, fromU32_toNat c⟩

theorem property_characters_subset_ranges {U : UnicodeData} {pt : PropertyType} {c : Char}
    (h : c ∈ UnicodeCategory.characters U (.Property pt)) :
    ∃ r ∈ propertyScanRanges, r.1 ≤ c.toNat ∧ c.toNat ≤ r.2 := by
  unfold UnicodeCategory.characters at h
  rw [List.mem_flatMap] at h
  obtain ⟨r, hr, hmem⟩ := h
  rw [List.mem_filter] at hmem
  obtain ⟨hmem, _⟩ := hmem
  rw [List.mem_filterMap] at hmem
  obtain ⟨n, hn, hf⟩ := hmem
  have ht := toNat_of_fromU32 hf
  rw [List.mem_range'_1] at hn
  exact ⟨r, hr, by omega⟩

/-- C7 counterexample: the `Property` classifier variant violates the
`contains`/`enumerate` consistency contract.  `characters()` for a
property-based category only scans a fixed list of ranges, so
U+0E3F THAI CURRENCY SYMBOL BAHT — a currency symbol (Unicode `Sc`) lying
in none of the scanned ranges — satisfies `contains` but never appears in
the enumeration. -/
theorem c7_classifier_counterexample :
    UnicodeCategory.containsChar currencyData (.Property .CurrencySymbols) '฿' = true ∧
    '฿' ∉ UnicodeCategory.characters currencyData (.Property .CurrencySymbols) := by
  refine ⟨by decide, fun h => ?_⟩
  have hr := property_characters_subset_ranges h
  revert hr
  decide

/-- C7 amended: for the `Block`, `MultiBlock` and `Collection` classifier
variants — but not `Property` — `contains(c)` agrees with membership in
`characters()` for every character and every instantiation of the Unicode
data tables. -/
theorem c7_classifier_consistency_amended (U : UnicodeData) (cat : UnicodeCategory)
    (c : Char) (h : cat.isPropertyBased = false) :
    cat.containsChar U c = true ↔ c ∈ cat.characters U := by
  cases cat with
  | Block b =>
    show b.containsChar c = true ↔ c ∈ b.characters
    rw [ublock_mem_characters]
    unfold UBlock.containsChar
    simp only [Bool.and_eq_true, decide_eq_true_eq]
  | MultiBlock m =>
    show m.blocks.any (fun b => b.containsChar c) = true ↔
      c ∈ m.blocks.flatMap UBlock.characters
    rw [List.any_eq_true, List.mem_flatMap]
    refine exists_congr fun b => and_congr_right fun _ => ?_
    rw [ublock_mem_characters]
    unfold UBlock.containsChar
    simp only [Bool.and_eq_true, decide_eq_true_eq]
  | Collection s =>
    show s.chars.contains c = true ↔ c ∈ s.chars
    exact List.elem_iff
  | Property p =>
    cases h

/-- Witness for C7 amended: the Basic Latin printable block contains `'A'`
and enumerates it. -/
theorem c7_classifier_consistency_amended_witness :
    (UnicodeCategory.Block ⟨0x20, 0x7E⟩).isPropertyBased = false ∧
    (UnicodeCategory.containsChar asciiData (.Block ⟨0x20, 0x7E⟩) 'A' = true ↔
      'A' ∈ UnicodeCategory.characters asciiData (.Block ⟨0x20, 0x7E⟩)) :=
  ⟨rfl, c7_classifier_consistency_amended asciiData _ 'A' rfl⟩

theorem isDigit_iff {c : Char} : c.isDigit = true ↔ 48 ≤ c.toNat ∧ c.toNat ≤ 57 := by
  unfold Char.isDigit
  simp only [Bool.and_eq_true, decide_eq_true_eq, ge_iff_le, UInt32.le_def, BitVec.le_def]
  exact Iff.rfl

theorem isAsciiHexDigit_iff {c : Char} :
    isAsciiHexDigit c = true ↔
      (48 ≤ c.toNat ∧ c.toNat ≤ 57) ∨ (97 ≤ c.toNat ∧ c.toNat ≤ 102) ∨
      (65 ≤ c.toNat ∧ c.toNat ≤ 70) := by
  unfold isAsciiHexDigit
  rw [Bool.or_eq_true, Bool.or_eq_true, Bool.and_eq_true, Bool.and_eq_true,
    isDigit_iff, decide_eq_true_eq, decide_eq_true_eq, decide_eq_true_eq,
    decide_eq_true_eq, char_le_iff, char_le_iff, char_le_iff, char_le_iff,
    show ('a' : Char).toNat = 97 from rfl, show ('f' : Char).toNat = 102 from rfl,
    show ('A' : Char).toNat = 65 from rfl, show ('F' : Char).toNat = 70 from rfl]
  tauto

theorem toLower_toNat (c : Char) :
    (Char.toLower c).toNat =
      if 65 ≤ c.toNat ∧ c.toNat ≤ 90 then c.toNat + 32 else c.toNat := by
  unfold Char.toLower
  dsimp only
  split
  · rename_i h
    have hv : (c.toNat + 32).isValidChar := Or.inl (by omega)
    rw [Char.ofNat, dif_pos hv]
    exact toNat_ofNatAux hv
  · rfl

theorem toLower_hexdigit_toNat {c : Char} (h : isAsciiHexDigit c = true) :
    (48 ≤ (Char.toLower c).toNat ∧ (Char.toLower c).toNat ≤ 57) ∨
    (97 ≤ (Char.toLower c).toNat ∧ (Char.toLower c).toNat ≤ 102) := by
  rw [toLower_toNat]
  rw [isAsciiHexDigit_iff] at h
  split <;> omega

theorem hexdigit_not_ws {c : Char} (h : isAsciiHexDigit c = true) :
    c.isWhitespace = false := by
  cases hw : c.isWhitespace
  · rfl
  · exfalso
    unfold Char.isWhitespace at hw
    simp only [Bool.or_eq_true, decide_eq_true_eq] at hw
    rcases hw with ((h1 | h1) | h1) | h1 <;> subst h1 <;> exact absurd h (by decide)

theorem dropWhile_eq_self_of {p : Char → Bool} {l : List Char}
    (h : ∀ c ∈ l, p c = false) : l.dropWhile p = l := by
  cases l with
  | nil => rfl
  | cons a t =>
    rw [List.dropWhile_cons]
    simp [h a (List.mem_cons_self a t)]

theorem rustTrim_of_all_not_ws {l : List Char}
    (h : ∀ c ∈ l, c.isWhitespace = false) : rustTrimList l = l := by
  unfold rustTrimList
  rw [dropWhile_eq_self_of h,
    dropWhile_eq_self_of (fun c hc => h c (List.mem_reverse.mp hc)), List.reverse_reverse]

theorem parse_hex_code_of_hexdigits {text : String} {code : Nat}
    (hhex : ∀ c ∈ text.toList, isAsciiHexDigit c = true)
    (hlen2 : 2 ≤ text.toList.length) (hlen6 : text.toList.length ≤ 6)
    (hcode : parseNatRadix 16 (text.toList.map Char.toLower) = some code) :
    parse_hex_code text = fromU32 code := by
  obtain ⟨a, b, rest, hl⟩ : ∃ a b rest, text.toList = a :: b :: rest := by
    cases l : text.toList with
    | nil => rw [l] at hlen2; simp at hlen2
    | cons a t =>
      cases t with
      | nil => rw [l] at hlen2; simp at hlen2
      | cons b r => exact ⟨a, b, r, rfl⟩
  have hclean : (rustTrimList text.toList).map Char.toLower =
      text.toList.map Char.toLower := by
    rw [rustTrim_of_all_not_ws (fun c hc => hexdigit_not_ws (hhex c hc))]
  have hna : Char.toLower a ≠ 'u' := by
    refine char_ne_of_toNat_ne ?_
    have := toLower_hexdigit_toNat (hhex a (by rw [hl]; exact List.mem_cons_self _ _))
    have hu : ('u' : Char).toNat = 117 := rfl
    omega
  have hnb : Char.toLower b ≠ 'x' := by
    refine char_ne_of_toNat_ne ?_
    have := toLower_hexdigit_toNat
      (hhex b (by rw [hl]; exact List.mem_cons_of_mem _ (List.mem_cons_self _ _)))
    have hx : ('x' : Char).toNat = 120 := rfl
    omega
  unfold parse_hex_code
  dsimp only
  rw [hclean, hl, List.map_cons, List.map_cons]
  split
  · rename_i heq
    exfalso
    injection heq with h1 _
    exact hna h1
  · split
    · rename_i heq
      exfalso
      injection heq with h1 h2
      injection h2 with h2 _
      exact hnb h2
    · have hall : (Char.toLower a :: Char.toLower b :: rest.map Char.toLower).all
          isAsciiHexDigit = true := by
        rw [List.all_eq_true]
        intro x hx
        rw [show Char.toLower a :: Char.toLower b :: rest.map Char.toLower =
            (a :: b :: rest).map Char.toLower from rfl, List.mem_map] at hx
        obtain ⟨y, hy, hxy⟩ := hx
        subst hxy
        have hyh : isAsciiHexDigit y = true := hhex y (by rw [hl]; exact hy)
        exact isAsciiHexDigit_iff.mpr (by have := toLower_hexdigit_toNat hyh; omega)
      have hlen : (Char.toLower a :: Char.toLower b :: rest.map Char.toLower).length ≤ 6 := by
        have hme : (Char.toLower a :: Char.toLower b :: rest.map Char.toLower).length =
            text.toList.length := by
          rw [hl]
          simp
        omega
      have hcond : ((Char.toLower a :: Char.toLower b :: rest.map Char.toLower).all
          isAsciiHexDigit &&
          decide ((Char.toLower a :: Char.toLower b :: rest.map Char.toLower).length ≤ 6)) =
          true := by
        rw [hall, decide_eq_true hlen]
        rfl
      rw [if_pos hcond]
      rw [hl, List.map_cons, List.map_cons] at hcode
      rw [hcode]

/-- C10 counterexample: for a *single* hex-digit query the hexadecimal
interpretation does not take precedence — the literal-character branch runs
first.  On an index containing both U+0004 (the hex reading of `"4"`) and
the digit `'4'` itself, `search("4")` returns the entry for the literal
character `'4'`, not the hex-resolved U+0004 entry. -/
theorem c10_hex_precedence_counterexample :
    search asciiData (SearchParams.new "4" false false false)
      [('\u0004', "End Of Transmission"), ('4', "Digit Four")] [] "s" =
      [('4', "Digit Four")] ∧
    fromU32 4 = some '\u0004' ∧
    lookupName '\u0004' [('\u0004', "End Of Transmission"), ('4', "Digit Four")] =
      some "End Of Transmission" ∧
    ¬ ([('4', "Digit Four")] =
        ([('\u0004', "End Of Transmission")] : List (Char × String))) :=
  ⟨by decide, by decide, by decide, by decide⟩

/-- C10 amended: for every query of **2 to 6** ASCII hex digits, the
hexadecimal interpretation takes precedence over the decimal one: (1) when
the hex-resolved codepoint is a valid scalar present in the index, `search`
returns exactly that single entry (the decimal reading is never consulted);
(2) the decimal reading is used only when the hex interpretation fails to
resolve to an in-index character. -/
theorem c10_hex_precedence_amended (U : UnicodeData) (cache : List (Char × String))
    (cats : List Category) (sel : String) (soc sn cs : Bool) (text : String) (code : Nat)
    (hhex : ∀ c ∈ text.toList, isAsciiHexDigit c = true)
    (hlen2 : 2 ≤ text.toList.length) (hlen6 : text.toList.length ≤ 6)
    (hcode : parseNatRadix 16 (text.toList.map Char.toLower) = some code) :
    (∀ (c : Char) (n : String), fromU32 code = some c → lookupName c cache = some n →
      search U (SearchParams.new text soc sn cs) cache cats sel = [(c, n)]) ∧
    (∀ (d : Nat) (c' : Char) (n' : String),
      (fromU32 code = none ∨ ∃ c, fromU32 code = some c ∧ lookupName c cache = none) →
      parseNatRadix 10 text.toList = some d → fromU32 d = some c' →
      lookupName c' cache = some n' →
      search U (SearchParams.new text soc sn cs) cache cats sel = [(c', n')]) := by
  have hP := parse_hex_code_of_hexdigits hhex hlen2 hlen6 hcode
  have hne : text.isEmpty = false := by
    cases hemp : text.isEmpty
    · rfl
    · rw [(String.isEmpty_iff _).mp hemp] at hlen2
      simp at hlen2
  have hspecial : search_special_patterns U text cache = hex_code_step text cache := by
    obtain ⟨a, b, rest, hl⟩ : ∃ a b rest, text.toList = a :: b :: rest := by
      cases l : text.toList with
      | nil => rw [l] at hlen2; simp at hlen2
      | cons a t =>
        cases t with
        | nil => rw [l] at hlen2; simp at hlen2
        | cons b r => exact ⟨a, b, r, rfl⟩
    unfold search_special_patterns
    rw [hl]
  constructor
  · intro c n hc hn
    have hhs : hex_code_step text cache = some [(c, n)] := by
      unfold hex_code_step
      rw [hP, hc]
      dsimp only
      rw [hn]
    unfold search
    rw [show (SearchParams.new text soc sn cs).text = text from rfl, hne, hspecial, hhs]
    rfl
  · intro d c' n' hfail hd hc' hn'
    have hhs : hex_code_step text cache = decimal_code_step text cache := by
      unfold hex_code_step
      rw [hP]
      rcases hfail with hnone | ⟨ch, hch, hlook⟩
      · rw [hnone]
      · rw [hch]
        dsimp only
        rw [hlook]
    have hdec : decimal_code_step text cache = some [(c', n')] := by
      unfold decimal_code_step
      rw [hd]
      dsimp only
      rw [hc']
      dsimp only
      rw [hn']
    unfold search
    rw [show (SearchParams.new text soc sn cs).text = text from rfl, hne, hspecial, hhs, hdec]
    rfl

/-- Witness for C10 amended: the 2-digit hex query `"41"` resolves to `'A'`
and wins on an index containing `'A'` (part 1), and the query `"65"`, whose
hex reading `'e'` is absent from that index, falls through to the decimal
reading 65 = `'A'` (part 2). -/
theorem c10_hex_precedence_amended_witness :
    search asciiData (SearchParams.new "41" false false false)
      [('A', "Latin Capital Letter A")] [] "s" = [('A', "Latin Capital Letter A")] ∧
    search asciiData (SearchParams.new "65" false false false)
      [('A', "Latin Capital Letter A")] [] "s" = [('A', "Latin Capital Letter A")] :=
  ⟨(c10_hex_precedence_amended asciiData [('A', "Latin Capital Letter A")] [] "s"
      false false false "41" 0x41 (by decide) (by decide) (by decide) (by decide)).1
      'A' "Latin Capital Letter A" (by decide) (by decide),
   (c10_hex_precedence_amended asciiData [('A', "Latin Capital Letter A")] [] "s"
      false false false "65" 0x65 (by decide) (by decide) (by decide) (by decide)).2
      65 'A' "Latin Capital Letter A" (Or.inr ⟨'e', by decide, by decide⟩)
      (by decide) (by decide) (by decide)⟩

end Glyphana
